import Mathlib

/-!
Verification of the adaptive threshold-search driver of `qat/qscore/iterators.py`.

The two generators `_exhaustive` and `_dichotomic` are embedded as explicit
recursive functions.  A generator suspends at each `yield index` and is resumed
by the driver with `fun(index)`; each resumption is a fresh call of the
evaluation function, so the evaluation function is modelled as an oracle
`f : ℕ → ℤ → ℚ` taking the ordinal of the call and the yielded index (a
deterministic evaluation function `g : ℤ → ℚ` is the instance `fun _ => g`).
Scores are rationals (idealised floats); size indices are integers.

Python `dict` semantics used by the generators: assigning an existing key
updates it in place, a new key is appended; `max(values)` is the maximum key
and raises `ValueError` on an empty dict (modelled by an `Option`-`none`
overall result).  The unbounded `while True` bisection loop is modelled with
explicit fuel; `(upper - lower).natAbs + 1` units are supplied, which is proved
sufficient below.
-/

/-- The tagged third component of a generator's return tuple. -/
inductive Detail where
  | crossover (index : ℤ)
  | allPositive (index : ℤ) (value : ℚ)
  | allNegative (index : ℤ)
deriving DecidableEq, Repr

/-- Second component of a generator's return tuple: the `values` dict in two
of the three return statements, but the bare last score in the
`AllNegative` return statement (`return False, value, (False, start_size)`). -/
inductive TraceSlot where
  | map (m : List (ℤ × ℚ))
  | scalar (v : ℚ)
deriving DecidableEq, Repr

/-- The tuple returned by a generator (and hence by `Driver.run`):
success flag, trace slot, detail. -/
structure RunResult where
  success : Bool
  slot : TraceSlot
  detail : Detail
deriving DecidableEq, Repr

/-- Python `values[k] = v`: update an existing key in place, append a new one
(keys of a Python dict are unique, so at most one entry can match). -/
def dictInsert : List (ℤ × ℚ) → ℤ → ℚ → List (ℤ × ℚ)
  | [], k, v => [(k, v)]
  | p :: ps, k, v => if p.1 = k then (k, v) :: ps else p :: dictInsert ps k v

/-- Python `max(values)`: the maximum key of a dict, `none` when empty. -/
def maxKey : List (ℤ × ℚ) → Option ℤ
  | [] => none
  | p :: ps => some (ps.foldl (fun acc q => max acc q.1) p.1)

/-- The element queried immediately after the first occurrence of `x`. -/
def nextAfter : List ℤ → ℤ → Option ℤ
  | [], _ => none
  | q :: rest, x => if q = x then rest.head? else nextAfter rest x

/-- The `for index in range(start_size, end_size + 1)` loop of `_exhaustive`.
`fuel` is the number of remaining loop iterations, `n` the ordinal of the next
evaluation-function call.  Returns the generator's return tuple (`none` models
the `ValueError` that `max` raises on an empty dict) together with the list of
indices yielded from this point on, in query order. -/
def exhaustiveLoop (f : ℕ → ℤ → ℚ) (start : ℤ) :
    List (ℤ × ℚ) → ℤ → ℕ → ℕ → Option RunResult × List ℤ
  | values, _index, _n, 0 =>
    match maxKey values with
    | none => (none, [])
    | some mk =>
      match List.lookup mk values with
      | none => (none, [])
      | some mv => (some ⟨false, .map values, .allPositive mk mv⟩, [])
  | values, index, n, fuel + 1 =>
    let value := f n index
    let values' := dictInsert values index value
    if value < 0 then
      if index = start then (some ⟨false, .scalar value, .allNegative start⟩, [index])
      else (some ⟨true, .map values', .crossover (index - 1)⟩, [index])
    else
      let r := exhaustiveLoop f start values' (index + 1) (n + 1) fuel
      (r.1, index :: r.2)

/-- `_exhaustive(start_size, end_size)` driven to completion against `f`. -/
def exhaustive (f : ℕ → ℤ → ℚ) (start_size end_size : ℤ) : Option RunResult × List ℤ :=
  exhaustiveLoop f start_size [] start_size 0 (end_size + 1 - start_size).toNat

/-- The `while True` bisection loop of `_dichotomic`.  One unit of fuel is
spent per iteration; the loop is re-entered only with a strictly smaller
bracket, so any fuel exceeding `(upper - lower).natAbs` is sufficient
(proved below); exhausted fuel yields `none`. -/
def dichoLoop (f : ℕ → ℤ → ℚ) :
    List (ℤ × ℚ) → ℤ → ℤ → ℕ → ℕ → Option RunResult × List ℤ
  | _values, _lower, _upper, _n, 0 => (none, [])
  | values, lower, upper, n, fuel + 1 =>
    if (upper - lower).natAbs ≤ 1 then
      (some ⟨true, .map values, .crossover lower⟩, [])
    else
      let next_index := Int.fdiv (upper + lower) 2
      let v := f n next_index
      let values' := dictInsert values next_index v
      if v < 0 then
        let r := dichoLoop f values' lower next_index (n + 1) fuel
        (r.1, next_index :: r.2)
      else
        let r := dichoLoop f values' next_index upper (n + 1) fuel
        (r.1, next_index :: r.2)

/-- `_dichotomic(start_size, end_size)` driven to completion against `f`:
query `lower` then `upper`, store both scores, then the three-way dispatch of
the source (`values[upper] > 0` → all positive, `values[lower] < 0` → all
negative with the bare last score in the trace slot, otherwise bisect). -/
def dichotomic (f : ℕ → ℤ → ℚ) (start_size end_size : ℤ) : Option RunResult × List ℤ :=
  let lower := start_size
  let upper := end_size
  let value0 := f 0 lower
  let values0 := dictInsert [] lower value0
  let value := f 1 upper
  let values := dictInsert values0 upper value
  match List.lookup upper values, List.lookup lower values with
  | some vu, some vl =>
    if 0 < vu then
      match maxKey values with
      | none => (none, [lower, upper])
      | some mk =>
        match List.lookup mk values with
        | none => (none, [lower, upper])
        | some mv => (some ⟨false, .map values, .allPositive mk mv⟩, [lower, upper])
    else if vl < 0 then
      (some ⟨false, .scalar value, .allNegative start_size⟩, [lower, upper])
    else
      let r := dichoLoop f values lower upper 2 ((upper - lower).natAbs + 1)
      (r.1, lower :: upper :: r.2)
  | _, _ => (none, [lower, upper])

/-- The `GENERATORS` dispatch table. -/
def GENERATORS : List (String × ((ℕ → ℤ → ℚ) → ℤ → ℤ → Option RunResult × List ℤ)) :=
  [("exhaustive", exhaustive), ("dichotomic", dichotomic)]

/-- `Driver(fun, iteration, start_size, end_size).run()`: an unknown iteration
name raises `ValueError` at construction time, before any evaluation; a known
one drives the corresponding generator to completion. -/
def Driver_run (iteration : String) (f : ℕ → ℤ → ℚ) (start_size end_size : ℤ) :
    Except String (Option RunResult × List ℤ) :=
  match List.lookup iteration GENERATORS with
  | none => .error ("Unknown iteration method " ++ iteration)
  | some gen => .ok (gen f start_size end_size)

/-!
### Exception-aware model

`Driver.run` calls `self.fun(index)` directly; an exception raised by the
evaluation function propagates out of `run()` unchanged (there is no
`try`/`except` around the call), while an unknown strategy name raises
`ValueError` already in `Driver.__init__`.  To reason about this the same
generators are embedded once more with a fallible evaluation function
`f : ℤ → Except ε ℚ`; the query list records every index for which the
driver attempted an evaluation, including the failing one.
-/

/-- Errors surfacing from a driver interaction: a construction-time
configuration error (unknown strategy name) or an error raised by the
evaluation function, kept distinguishable. -/
inductive DriverError (ε : Type) where
  | unsupportedStrategy (name : String)
  | evalFailure (err : ε)
deriving DecidableEq, Repr

/-- `_exhaustive` driven against a fallible evaluation function. -/
def exhaustiveLoopE {ε : Type} (f : ℤ → Except ε ℚ) (start : ℤ) :
    List (ℤ × ℚ) → ℤ → ℕ → Except ε (Option RunResult) × List ℤ
  | values, _index, 0 =>
    (match maxKey values with
     | none => (.ok none, [])
     | some mk =>
       match List.lookup mk values with
       | none => (.ok none, [])
       | some mv => (.ok (some ⟨false, .map values, .allPositive mk mv⟩), []))
  | values, index, fuel + 1 =>
    match f index with
    | .error err => (.error err, [index])
    | .ok value =>
      if value < 0 then
        if index = start then (.ok (some ⟨false, .scalar value, .allNegative start⟩), [index])
        else (.ok (some ⟨true, .map (dictInsert values index value), .crossover (index - 1)⟩),
          [index])
      else
        ((exhaustiveLoopE f start (dictInsert values index value) (index + 1) fuel).1,
         index :: (exhaustiveLoopE f start (dictInsert values index value) (index + 1) fuel).2)

/-- `_exhaustive(start_size, end_size)` with a fallible evaluation function. -/
def exhaustiveE {ε : Type} (f : ℤ → Except ε ℚ) (start_size end_size : ℤ) :
    Except ε (Option RunResult) × List ℤ :=
  exhaustiveLoopE f start_size [] start_size (end_size + 1 - start_size).toNat

/-- The bisection loop with a fallible evaluation function. -/
def dichoLoopE {ε : Type} (f : ℤ → Except ε ℚ) :
    List (ℤ × ℚ) → ℤ → ℤ → ℕ → Except ε (Option RunResult) × List ℤ
  | _values, _lower, _upper, 0 => (.ok none, [])
  | values, lower, upper, fuel + 1 =>
    if (upper - lower).natAbs ≤ 1 then
      (.ok (some ⟨true, .map values, .crossover lower⟩), [])
    else
      match f (Int.fdiv (upper + lower) 2) with
      | .error err => (.error err, [Int.fdiv (upper + lower) 2])
      | .ok v =>
        if v < 0 then
          ((dichoLoopE f (dictInsert values (Int.fdiv (upper + lower) 2) v) lower
              (Int.fdiv (upper + lower) 2) fuel).1,
           Int.fdiv (upper + lower) 2 :: (dichoLoopE f
              (dictInsert values (Int.fdiv (upper + lower) 2) v) lower
              (Int.fdiv (upper + lower) 2) fuel).2)
        else
          ((dichoLoopE f (dictInsert values (Int.fdiv (upper + lower) 2) v)
              (Int.fdiv (upper + lower) 2) upper fuel).1,
           Int.fdiv (upper + lower) 2 :: (dichoLoopE f
              (dictInsert values (Int.fdiv (upper + lower) 2) v)
              (Int.fdiv (upper + lower) 2) upper fuel).2)

/-- `_dichotomic(start_size, end_size)` with a fallible evaluation function. -/
def dichotomicE {ε : Type} (f : ℤ → Except ε ℚ) (start_size end_size : ℤ) :
    Except ε (Option RunResult) × List ℤ :=
  match f start_size with
  | .error err => (.error err, [start_size])
  | .ok v1 =>
    match f end_size with
    | .error err => (.error err, [start_size, end_size])
    | .ok v2 =>
      let values := dictInsert (dictInsert [] start_size v1) end_size v2
      match List.lookup end_size values, List.lookup start_size values with
      | some vu, some vl =>
        if 0 < vu then
          match maxKey values with
          | none => (.ok none, [start_size, end_size])
          | some mk =>
            match List.lookup mk values with
            | none => (.ok none, [start_size, end_size])
            | some mv =>
              (.ok (some ⟨false, .map values, .allPositive mk mv⟩), [start_size, end_size])
        else if vl < 0 then
          (.ok (some ⟨false, .scalar v2, .allNegative start_size⟩), [start_size, end_size])
        else
          ((dichoLoopE f values start_size end_size ((end_size - start_size).natAbs + 1)).1,
           start_size :: end_size ::
             (dichoLoopE f values start_size end_size ((end_size - start_size).natAbs + 1)).2)
      | _, _ => (.ok none, [start_size, end_size])

/-- The `GENERATORS` dispatch table for the fallible model. -/
def GENERATORSE (ε : Type) :
    List (String × ((ℤ → Except ε ℚ) → ℤ → ℤ → Except ε (Option RunResult) × List ℤ)) :=
  [("exhaustive", exhaustiveE), ("dichotomic", dichotomicE)]

/-- Construction followed by `run()` in the fallible model: an unrecognized
strategy name fails at construction time before any evaluation; afterwards an
evaluation failure propagates, tagged as such so the two are distinguishable. -/
def driverRunE {ε : Type} (iteration : String) (f : ℤ → Except ε ℚ) (start_size end_size : ℤ) :
    Except (DriverError ε) (Option RunResult) × List ℤ :=
  match List.lookup iteration (GENERATORSE ε) with
  | none => (.error (.unsupportedStrategy iteration), [])
  | some gen =>
    ((gen f start_size end_size).1.mapError DriverError.evalFailure,
     (gen f start_size end_size).2)

/-! ### Association-list helper lemmas -/

theorem dictInsert_notMem {m : List (ℤ × ℚ)} {k : ℤ} (v : ℚ)
    (h : ∀ p ∈ m, p.1 ≠ k) : dictInsert m k v = m ++ [(k, v)] := by
  induction m with
  | nil => rfl
  | cons p ps ih =>
    rw [dictInsert, if_neg (h p (by simp)), ih fun q hq => h q (by simp [hq])]
    rfl

theorem mem_dictInsert {m : List (ℤ × ℚ)} {k : ℤ} {v : ℚ} :
    ∀ q ∈ dictInsert m k v, q ∈ m ∨ q = (k, v) := by
  induction m with
  | nil =>
    intro q hq
    simp only [dictInsert, List.mem_singleton] at hq
    exact Or.inr hq
  | cons p ps ih =>
    intro q hq
    rw [dictInsert] at hq
    by_cases hpk : p.1 = k
    · rw [if_pos hpk] at hq
      rcases List.mem_cons.1 hq with h1 | h1
      · exact Or.inr h1
      · exact Or.inl (by simp [h1])
    · rw [if_neg hpk] at hq
      rcases List.mem_cons.1 hq with h1 | h1
      · exact Or.inl (by simp [h1])
      · rcases ih q h1 with h2 | h2
        · exact Or.inl (by simp [h2])
        · exact Or.inr h2

theorem lookup_dictInsert_self (m : List (ℤ × ℚ)) (k : ℤ) (v : ℚ) :
    List.lookup k (dictInsert m k v) = some v := by
  induction m with
  | nil => simp [dictInsert]
  | cons p ps ih =>
    rw [dictInsert]
    by_cases hpk : p.1 = k
    · rw [if_pos hpk]
      simp
    · rw [if_neg hpk, List.lookup_cons,
        beq_eq_false_iff_ne.2 fun hh => hpk hh.symm]
      exact ih

theorem lookup_dictInsert_ne (m : List (ℤ × ℚ)) {k k' : ℤ} (v : ℚ) (h : k' ≠ k) :
    List.lookup k' (dictInsert m k v) = List.lookup k' m := by
  induction m with
  | nil => simp [dictInsert, List.lookup_cons, show (k' == k) = false by simpa using h]
  | cons p ps ih =>
    rw [dictInsert]
    by_cases hpk : p.1 = k
    · rw [if_pos hpk]
      rw [List.lookup_cons, List.lookup_cons,
        show (k' == k) = false by simpa using h,
        show (k' == p.1) = false by simpa [hpk] using h]
    · rw [if_neg hpk, List.lookup_cons, List.lookup_cons]
      cases hc : k' == p.1 with
      | true => rfl
      | false => exact ih

theorem lookup_append_last {m : List (ℤ × ℚ)} {k : ℤ} (v : ℚ)
    (h : ∀ p ∈ m, p.1 ≠ k) : List.lookup k (m ++ [(k, v)]) = some v := by
  rw [List.lookup_append,
    List.lookup_eq_none_iff.2 fun p hp => by simpa using fun hh => h p hp hh.symm]
  simp

theorem lookup_append_ne {m : List (ℤ × ℚ)} {k k' : ℤ} (v : ℚ)
    (h : k' ≠ k) : List.lookup k' (m ++ [(k, v)]) = List.lookup k' m := by
  rw [List.lookup_append,
    show List.lookup k' [(k, v)] = none from
      List.lookup_eq_none_iff.2 (by simpa using fun hh => h hh)]
  cases List.lookup k' m <;> rfl

theorem foldl_max_le {k : ℤ} :
    ∀ (ps : List (ℤ × ℚ)) (acc : ℤ), (∀ p ∈ ps, p.1 ≤ k) → acc ≤ k →
      ps.foldl (fun a q => max a q.1) acc ≤ k
  | [], _, _, hacc => hacc
  | p :: ps, acc, h, hacc => by
    simp only [List.foldl_cons]
    exact foldl_max_le ps _ (fun q hq => h q (by simp [hq]))
      (max_le hacc (h p (by simp)))

theorem maxKey_append {m : List (ℤ × ℚ)} {k : ℤ} (v : ℚ)
    (h : ∀ p ∈ m, p.1 ≤ k) : maxKey (m ++ [(k, v)]) = some k := by
  cases m with
  | nil => rfl
  | cons p ps =>
    simp only [List.cons_append, maxKey, List.foldl_append, List.foldl_cons, List.foldl_nil]
    congr 1
    exact max_eq_right (foldl_max_le ps p.1 (fun q hq => h q (by simp [hq])) (h p (by simp)))

/-! ### Unfolding equations (stated once, used everywhere) -/

theorem exhaustiveLoop_zero (f : ℕ → ℤ → ℚ) (start : ℤ) (values : List (ℤ × ℚ))
    (index : ℤ) (n : ℕ) :
    exhaustiveLoop f start values index n 0 =
      (match maxKey values with
       | none => (none, [])
       | some mk =>
         match List.lookup mk values with
         | none => (none, [])
         | some mv => (some ⟨false, .map values, .allPositive mk mv⟩, [])) := rfl

theorem exhaustiveLoop_succ (f : ℕ → ℤ → ℚ) (start : ℤ) (values : List (ℤ × ℚ))
    (index : ℤ) (n fuel : ℕ) :
    exhaustiveLoop f start values index n (fuel + 1) =
      (if f n index < 0 then
        if index = start then (some ⟨false, .scalar (f n index), .allNegative start⟩, [index])
        else (some ⟨true, .map (dictInsert values index (f n index)), .crossover (index - 1)⟩,
          [index])
      else
        ((exhaustiveLoop f start (dictInsert values index (f n index)) (index + 1) (n + 1) fuel).1,
         index :: (exhaustiveLoop f start (dictInsert values index (f n index)) (index + 1)
           (n + 1) fuel).2)) := rfl

theorem dichoLoop_succ (f : ℕ → ℤ → ℚ) (values : List (ℤ × ℚ)) (lower upper : ℤ)
    (n fuel : ℕ) :
    dichoLoop f values lower upper n (fuel + 1) =
      (if (upper - lower).natAbs ≤ 1 then
        (some ⟨true, .map values, .crossover lower⟩, [])
      else
        if f n (Int.fdiv (upper + lower) 2) < 0 then
          ((dichoLoop f (dictInsert values (Int.fdiv (upper + lower) 2)
              (f n (Int.fdiv (upper + lower) 2))) lower (Int.fdiv (upper + lower) 2)
              (n + 1) fuel).1,
           Int.fdiv (upper + lower) 2 :: (dichoLoop f (dictInsert values
              (Int.fdiv (upper + lower) 2) (f n (Int.fdiv (upper + lower) 2))) lower
              (Int.fdiv (upper + lower) 2) (n + 1) fuel).2)
        else
          ((dichoLoop f (dictInsert values (Int.fdiv (upper + lower) 2)
              (f n (Int.fdiv (upper + lower) 2))) (Int.fdiv (upper + lower) 2) upper
              (n + 1) fuel).1,
           Int.fdiv (upper + lower) 2 :: (dichoLoop f (dictInsert values
              (Int.fdiv (upper + lower) 2) (f n (Int.fdiv (upper + lower) 2)))
              (Int.fdiv (upper + lower) 2) upper (n + 1) fuel).2)) := rfl

/-! ### Exhaustive-scan characterization lemmas -/

theorem exhaustiveLoop_allPass (f : ℕ → ℤ → ℚ) (start : ℤ) :
    ∀ (m : ℕ) (values : List (ℤ × ℚ)) (index : ℤ) (n : ℕ),
      (∀ p ∈ values, p.1 < index) →
      (∀ j : ℕ, j ≤ m → 0 ≤ f (n + j) (index + (j : ℤ))) →
      exhaustiveLoop f start values index n (m + 1) =
        (some ⟨false,
          .map (values ++ (List.range (m + 1)).map
            fun (j : ℕ) => (index + (j : ℤ), f (n + j) (index + (j : ℤ)))),
          .allPositive (index + (m : ℤ)) (f (n + m) (index + (m : ℤ)))⟩,
         (List.range (m + 1)).map fun (j : ℕ) => index + (j : ℤ)) := by
  intro m
  induction m with
  | zero =>
    intro values index n hkeys hsign
    have h0 : ¬ f n index < 0 := not_lt.2 (by simpa using hsign 0 le_rfl)
    have hne : ∀ p ∈ values, p.1 ≠ index := fun p hp => ne_of_lt (hkeys p hp)
    rw [exhaustiveLoop_succ, if_neg h0, exhaustiveLoop_zero, dictInsert_notMem _ hne,
      maxKey_append _ (fun p hp => le_of_lt (hkeys p hp))]
    simp [lookup_append_last _ hne, List.range_succ]
  | succ m ih =>
    intro values index n hkeys hsign
    have h0 : ¬ f n index < 0 := not_lt.2 (by simpa using hsign 0 (by omega))
    have hne : ∀ p ∈ values, p.1 ≠ index := fun p hp => ne_of_lt (hkeys p hp)
    have hrec := ih (values ++ [(index, f n index)]) (index + 1) (n + 1)
      (by
        intro p hp
        rcases List.mem_append.1 hp with hp' | hp'
        · exact lt_trans (hkeys p hp') (by omega)
        · simp only [List.mem_singleton] at hp'
          subst hp'
          simp)
      (by
        intro j hj
        have hs := hsign (j + 1) (by omega)
        have h2 : n + (j + 1) = n + 1 + j := by ring
        have h1 : index + ((j + 1 : ℕ) : ℤ) = index + 1 + (j : ℤ) := by push_cast; ring
        rw [h2, h1] at hs
        exact hs)
    rw [exhaustiveLoop_succ, if_neg h0, dictInsert_notMem _ hne, hrec]
    have htr : (List.range (m + 1 + 1)).map
          (fun (j : ℕ) => (index + (j : ℤ), f (n + j) (index + (j : ℤ)))) =
        (index, f n index) :: (List.range (m + 1)).map
          (fun (j : ℕ) => (index + 1 + (j : ℤ), f (n + 1 + j) (index + 1 + (j : ℤ)))) := by
      rw [List.range_succ_eq_map, List.map_cons, List.map_map]
      congr 1
      · simp
      · refine List.map_congr_left fun j hj => ?_
        simp only [Function.comp_apply, Nat.succ_eq_add_one]
        have h2 : n + (j + 1) = n + 1 + j := by ring
        have h1 : index + ((j + 1 : ℕ) : ℤ) = index + 1 + (j : ℤ) := by push_cast; ring
        rw [h2, h1]
    have hqs : (List.range (m + 1 + 1)).map (fun (j : ℕ) => index + (j : ℤ)) =
        index :: (List.range (m + 1)).map (fun (j : ℕ) => index + 1 + (j : ℤ)) := by
      rw [List.range_succ_eq_map, List.map_cons, List.map_map]
      congr 1
      · simp
      · refine List.map_congr_left fun j hj => ?_
        simp only [Function.comp_apply, Nat.succ_eq_add_one]
        push_cast
        ring
    have hK : index + ((m + 1 : ℕ) : ℤ) = index + 1 + (m : ℤ) := by push_cast; ring
    have hN : n + (m + 1) = n + 1 + m := by ring
    rw [htr, hqs, hK, hN]
    simp [List.append_assoc]

theorem exhaustiveLoop_crossover (f : ℕ → ℤ → ℚ) (start : ℤ) :
    ∀ (m fuel : ℕ) (values : List (ℤ × ℚ)) (index : ℤ) (n : ℕ),
      m < fuel →
      index + (m : ℤ) ≠ start →
      (∀ j : ℕ, j < m → 0 ≤ f (n + j) (index + (j : ℤ))) →
      f (n + m) (index + (m : ℤ)) < 0 →
      (∀ p ∈ values, p.1 < index) →
      exhaustiveLoop f start values index n fuel =
        (some ⟨true,
          .map (values ++ (List.range (m + 1)).map
            fun (j : ℕ) => (index + (j : ℤ), f (n + j) (index + (j : ℤ)))),
          .crossover (index + (m : ℤ) - 1)⟩,
         (List.range (m + 1)).map fun (j : ℕ) => index + (j : ℤ)) := by
  intro m
  induction m with
  | zero =>
    intro fuel values index n hfuel hstart _hpass hneg hkeys
    obtain ⟨fuel', rfl⟩ : ∃ t, fuel = t + 1 := ⟨fuel - 1, by omega⟩
    simp only [Nat.cast_zero, add_zero, Nat.add_zero] at hneg hstart
    have hne : ∀ p ∈ values, p.1 ≠ index := fun p hp => ne_of_lt (hkeys p hp)
    rw [exhaustiveLoop_succ, if_pos hneg, if_neg hstart, dictInsert_notMem _ hne]
    simp [List.range_succ]
  | succ m ih =>
    intro fuel values index n hfuel hstart hpass hneg hkeys
    obtain ⟨fuel', rfl⟩ : ∃ t, fuel = t + 1 := ⟨fuel - 1, by omega⟩
    have h0 : ¬ f n index < 0 := not_lt.2 (by simpa using hpass 0 (by omega))
    have hne : ∀ p ∈ values, p.1 ≠ index := fun p hp => ne_of_lt (hkeys p hp)
    have hrec := ih fuel' (values ++ [(index, f n index)]) (index + 1) (n + 1)
      (by omega)
      (by
        intro hc
        apply hstart
        rw [← hc]
        push_cast
        ring)
      (by
        intro j hj
        have hs := hpass (j + 1) (by omega)
        have h2 : n + (j + 1) = n + 1 + j := by ring
        have h1 : index + ((j + 1 : ℕ) : ℤ) = index + 1 + (j : ℤ) := by push_cast; ring
        rw [h2, h1] at hs
        exact hs)
      (by
        have h2 : n + (m + 1) = n + 1 + m := by ring
        have h1 : index + ((m + 1 : ℕ) : ℤ) = index + 1 + (m : ℤ) := by push_cast; ring
        rw [h2, h1] at hneg
        exact hneg)
      (by
        intro p hp
        rcases List.mem_append.1 hp with hp' | hp'
        · exact lt_trans (hkeys p hp') (by omega)
        · simp only [List.mem_singleton] at hp'
          subst hp'
          simp)
    rw [exhaustiveLoop_succ, if_neg h0, dictInsert_notMem _ hne, hrec]
    have htr : (List.range (m + 1 + 1)).map
          (fun (j : ℕ) => (index + (j : ℤ), f (n + j) (index + (j : ℤ)))) =
        (index, f n index) :: (List.range (m + 1)).map
          (fun (j : ℕ) => (index + 1 + (j : ℤ), f (n + 1 + j) (index + 1 + (j : ℤ)))) := by
      rw [List.range_succ_eq_map, List.map_cons, List.map_map]
      congr 1
      · simp
      · refine List.map_congr_left fun j hj => ?_
        simp only [Function.comp_apply, Nat.succ_eq_add_one]
        have h2 : n + (j + 1) = n + 1 + j := by ring
        have h1 : index + ((j + 1 : ℕ) : ℤ) = index + 1 + (j : ℤ) := by push_cast; ring
        rw [h2, h1]
    have hqs : (List.range (m + 1 + 1)).map (fun (j : ℕ) => index + (j : ℤ)) =
        index :: (List.range (m + 1)).map (fun (j : ℕ) => index + 1 + (j : ℤ)) := by
      rw [List.range_succ_eq_map, List.map_cons, List.map_map]
      congr 1
      · simp
      · refine List.map_congr_left fun j hj => ?_
        simp only [Function.comp_apply, Nat.succ_eq_add_one]
        push_cast
        ring
    have hK : index + ((m + 1 : ℕ) : ℤ) = index + 1 + (m : ℤ) := by push_cast; ring
    rw [htr, hqs, hK]
    simp [List.append_assoc]

theorem exhaustive_allNegative (f : ℕ → ℤ → ℚ) (s e : ℤ) (h : s ≤ e) (hneg : f 0 s < 0) :
    exhaustive f s e = (some ⟨false, .scalar (f 0 s), .allNegative s⟩, [s]) := by
  unfold exhaustive
  obtain ⟨fuel, hfuel⟩ : ∃ fuel, (e + 1 - s).toNat = fuel + 1 := ⟨(e - s).toNat, by omega⟩
  rw [hfuel, exhaustiveLoop_succ, if_pos hneg, if_pos rfl]

theorem lookup_rangeMap :
    ∀ (c : ℕ) (h : ℕ → ℚ) (base : ℤ) (j : ℕ), j < c →
      List.lookup (base + (j : ℤ))
        ((List.range c).map fun (i : ℕ) => (base + (i : ℤ), h i)) = some (h j) := by
  intro c
  induction c with
  | zero => intro h base j hj; omega
  | succ c ih =>
    intro h base j hj
    rw [List.range_succ_eq_map, List.map_cons, List.map_map]
    have hcomp : ((fun (i : ℕ) => (base + (i : ℤ), h i)) ∘ Nat.succ) =
        fun (i : ℕ) => (base + 1 + (i : ℤ), h (i + 1)) := by
      funext i
      simp only [Function.comp_apply, Nat.succ_eq_add_one, Prod.mk.injEq]
      exact ⟨by push_cast; ring, trivial⟩
    rw [hcomp]
    cases j with
    | zero =>
      simp only [Nat.cast_zero, add_zero]
      exact List.lookup_cons_self
    | succ j =>
      have hne : (base + ((j + 1 : ℕ) : ℤ)) ≠ base + ((0 : ℕ) : ℤ) := by push_cast; omega
      rw [List.lookup_cons, show ((base + ((j + 1 : ℕ) : ℤ)) == base + ((0 : ℕ) : ℤ)) = false by
        simpa using hne]
      have hkey : base + ((j + 1 : ℕ) : ℤ) = base + 1 + (j : ℤ) := by push_cast; ring
      rw [hkey]
      exact ih (fun t => h (t + 1)) (base + 1) j (by omega)

theorem nextAfter_rangeMap :
    ∀ (c : ℕ) (base : ℤ) (j : ℕ), j + 1 < c →
      nextAfter ((List.range c).map fun (i : ℕ) => base + (i : ℤ)) (base + (j : ℤ)) =
        some (base + (j : ℤ) + 1) := by
  intro c
  induction c with
  | zero => intro base j hj; omega
  | succ c ih =>
    intro base j hj
    rw [List.range_succ_eq_map, List.map_cons, List.map_map]
    have hcomp : ((fun (i : ℕ) => base + (i : ℤ)) ∘ Nat.succ) =
        fun (i : ℕ) => base + 1 + (i : ℤ) := by
      funext i
      simp only [Function.comp_apply, Nat.succ_eq_add_one]
      push_cast
      ring
    rw [hcomp]
    cases j with
    | zero =>
      rw [nextAfter, if_pos (by simp)]
      obtain ⟨c', rfl⟩ : ∃ t, c = t + 1 := ⟨c - 1, by omega⟩
      rw [List.range_succ_eq_map, List.map_cons]
      simp
    | succ j =>
      rw [nextAfter, if_neg (by push_cast; omega)]
      have hkey : base + ((j + 1 : ℕ) : ℤ) = base + 1 + (j : ℤ) := by push_cast; ring
      rw [hkey, ih (base + 1) j (by omega)]

/-! ### Bisection-loop lemmas -/

theorem nextAfter_cons (q : ℤ) (rest : List ℤ) (x : ℤ) :
    nextAfter (q :: rest) x = if q = x then rest.head? else nextAfter rest x := rfl

theorem dichoLoop_isSome (f : ℕ → ℤ → ℚ) :
    ∀ (fuel : ℕ) (values : List (ℤ × ℚ)) (lower upper : ℤ) (n : ℕ),
      (upper - lower).natAbs < fuel →
      ∃ r, (dichoLoop f values lower upper n fuel).1 = some r := by
  intro fuel
  induction fuel with
  | zero => intro values lower upper n hfuel; omega
  | succ fuel ih =>
    intro values lower upper n hfuel
    rw [dichoLoop_succ]
    by_cases hgap : (upper - lower).natAbs ≤ 1
    · rw [if_pos hgap]
      exact ⟨_, rfl⟩
    · rw [if_neg hgap]
      have hmid : Int.fdiv (upper + lower) 2 = (upper + lower) / 2 :=
        Int.fdiv_eq_ediv _ (by norm_num)
      by_cases hv : f n (Int.fdiv (upper + lower) 2) < 0
      · rw [if_pos hv]
        exact ih _ lower _ (n + 1) (by omega)
      · rw [if_neg hv]
        exact ih _ _ upper (n + 1) (by omega)

theorem dichoLoop_count (f : ℕ → ℤ → ℚ) :
    ∀ (fuel : ℕ) (values : List (ℤ × ℚ)) (lower upper : ℤ) (n : ℕ),
      (upper - lower).natAbs < fuel →
      lower ≤ upper →
      ((dichoLoop f values lower upper n fuel).2).length ≤
        Nat.clog 2 (upper - lower).toNat := by
  intro fuel
  induction fuel with
  | zero => intro values lower upper n hfuel _; omega
  | succ fuel ih =>
    intro values lower upper n hfuel hlu
    rw [dichoLoop_succ]
    by_cases hgap : (upper - lower).natAbs ≤ 1
    · rw [if_pos hgap]
      exact Nat.zero_le _
    · rw [if_neg hgap]
      have hmid : Int.fdiv (upper + lower) 2 = (upper + lower) / 2 :=
        Int.fdiv_eq_ediv _ (by norm_num)
      have hg2 : 2 ≤ (upper - lower).toNat := by omega
      rw [Nat.clog_of_two_le (by norm_num) hg2]
      by_cases hv : f n (Int.fdiv (upper + lower) 2) < 0
      · rw [if_pos hv]
        simp only [List.length_cons]
        have hrec := ih (dictInsert values (Int.fdiv (upper + lower) 2)
            (f n (Int.fdiv (upper + lower) 2)))
          lower (Int.fdiv (upper + lower) 2) (n + 1) (by omega) (by omega)
        refine Nat.add_le_add_right (le_trans hrec (Nat.clog_mono_right _ ?_)) 1
        omega
      · rw [if_neg hv]
        simp only [List.length_cons]
        have hrec := ih (dictInsert values (Int.fdiv (upper + lower) 2)
            (f n (Int.fdiv (upper + lower) 2)))
          (Int.fdiv (upper + lower) 2) upper (n + 1) (by omega) (by omega)
        refine Nat.add_le_add_right (le_trans hrec (Nat.clog_mono_right _ ?_)) 1
        omega

theorem dichoLoop_locates (f : ℕ → ℤ → ℚ) (c : ℤ) :
    ∀ (fuel : ℕ) (values : List (ℤ × ℚ)) (lower upper : ℤ) (n : ℕ),
      (upper - lower).natAbs < fuel →
      lower ≤ c → c < upper →
      (∀ (k : ℕ) (i : ℤ), lower ≤ i → i ≤ c → 0 < f k i) →
      (∀ (k : ℕ) (i : ℤ), c < i → i ≤ upper → f k i < 0) →
      ∃ T qs, dichoLoop f values lower upper n fuel =
        (some ⟨true, .map T, .crossover c⟩, qs) := by
  intro fuel
  induction fuel with
  | zero => intro values lower upper n hfuel _ _ _ _; omega
  | succ fuel ih =>
    intro values lower upper n hfuel hlc hcu hpos hneg
    rw [dichoLoop_succ]
    by_cases hgap : (upper - lower).natAbs ≤ 1
    · rw [if_pos hgap]
      obtain rfl : lower = c := by omega
      exact ⟨values, [], rfl⟩
    · rw [if_neg hgap]
      have hmid : Int.fdiv (upper + lower) 2 = (upper + lower) / 2 :=
        Int.fdiv_eq_ediv _ (by norm_num)
      by_cases hmc : Int.fdiv (upper + lower) 2 ≤ c
      · have hv : ¬ f n (Int.fdiv (upper + lower) 2) < 0 :=
          not_lt.2 (le_of_lt (hpos n _ (by omega) hmc))
        rw [if_neg hv]
        obtain ⟨T, qs, heq⟩ := ih _ (Int.fdiv (upper + lower) 2) upper (n + 1)
          (by omega) hmc hcu (fun k i h1 h2 => hpos k i (by omega) h2) hneg
        exact ⟨T, Int.fdiv (upper + lower) 2 :: qs, by rw [heq]⟩
      · have hv : f n (Int.fdiv (upper + lower) 2) < 0 :=
          hneg n _ (by omega) (by omega)
        rw [if_pos hv]
        obtain ⟨T, qs, heq⟩ := ih _ lower (Int.fdiv (upper + lower) 2) (n + 1)
          (by omega) hlc (by omega) hpos
          (fun k i h1 h2 => hneg k i h1 (by omega))
        exact ⟨T, Int.fdiv (upper + lower) 2 :: qs, by rw [heq]⟩

theorem dichoLoop_preserves (f : ℕ → ℤ → ℚ) (k : ℤ) :
    ∀ (fuel : ℕ) (values : List (ℤ × ℚ)) (lower upper : ℤ) (n : ℕ),
      (upper - lower).natAbs < fuel →
      lower ≤ upper →
      (k ≤ lower ∨ upper ≤ k) →
      ∃ T L qs, dichoLoop f values lower upper n fuel =
        (some ⟨true, .map T, .crossover L⟩, qs) ∧
        List.lookup k T = List.lookup k values := by
  intro fuel
  induction fuel with
  | zero => intro values lower upper n hfuel _ _; omega
  | succ fuel ih =>
    intro values lower upper n hfuel hlu hk
    rw [dichoLoop_succ]
    by_cases hgap : (upper - lower).natAbs ≤ 1
    · rw [if_pos hgap]
      exact ⟨values, lower, [], rfl, rfl⟩
    · rw [if_neg hgap]
      have hmid : Int.fdiv (upper + lower) 2 = (upper + lower) / 2 :=
        Int.fdiv_eq_ediv _ (by norm_num)
      have hkm : k ≠ Int.fdiv (upper + lower) 2 := by omega
      by_cases hv : f n (Int.fdiv (upper + lower) 2) < 0
      · rw [if_pos hv]
        obtain ⟨T, L, qs, heq, hlk⟩ := ih _ lower (Int.fdiv (upper + lower) 2) (n + 1)
          (by omega) (by omega) (by omega)
        refine ⟨T, L, Int.fdiv (upper + lower) 2 :: qs, by rw [heq], ?_⟩
        rw [hlk, lookup_dictInsert_ne _ _ hkm]
      · rw [if_neg hv]
        obtain ⟨T, L, qs, heq, hlk⟩ := ih _ (Int.fdiv (upper + lower) 2) upper (n + 1)
          (by omega) (by omega) (by omega)
        refine ⟨T, L, Int.fdiv (upper + lower) 2 :: qs, by rw [heq], ?_⟩
        rw [hlk, lookup_dictInsert_ne _ _ hkm]

theorem dichoLoop_invariant (f : ℕ → ℤ → ℚ) :
    ∀ (fuel : ℕ) (values : List (ℤ × ℚ)) (lower upper : ℤ) (n : ℕ),
      (upper - lower).natAbs < fuel →
      lower ≤ upper →
      (∃ a, List.lookup lower values = some a ∧ 0 ≤ a) →
      (∃ b, List.lookup upper values = some b ∧ b ≤ 0) →
      ∃ T L qs, dichoLoop f values lower upper n fuel =
        (some ⟨true, .map T, .crossover L⟩, qs) ∧
        lower ≤ L ∧ L ≤ upper ∧ (lower < upper → L < upper) ∧
        (∃ c, List.lookup L T = some c ∧ 0 ≤ c) ∧
        ((L = lower ∧ (qs = [] ∨ ∃ q qs2 w, qs = q :: qs2 ∧
            List.lookup q T = some w ∧ w < 0)) ∨
         (lower < L ∧ ∀ j, nextAfter qs L = some j →
            ∃ w, List.lookup j T = some w ∧ w < 0)) := by
  intro fuel
  induction fuel with
  | zero => intro values lower upper n hfuel _ _ _; omega
  | succ fuel ih =>
    intro values lower upper n hfuel hlu hl hu
    rw [dichoLoop_succ]
    by_cases hgap : (upper - lower).natAbs ≤ 1
    · rw [if_pos hgap]
      exact ⟨values, lower, [], rfl, le_rfl, hlu, fun h => h, hl,
        Or.inl ⟨rfl, Or.inl rfl⟩⟩
    · rw [if_neg hgap]
      have hmid : Int.fdiv (upper + lower) 2 = (upper + lower) / 2 :=
        Int.fdiv_eq_ediv _ (by norm_num)
      obtain ⟨a, hla, hapos⟩ := hl
      obtain ⟨b, hlb, hbneg⟩ := hu
      by_cases hv : f n (Int.fdiv (upper + lower) 2) < 0
      · rw [if_pos hv]
        obtain ⟨T, L, qs, heq, hL1, hL2, hL3, hsig, hdisj⟩ :=
          ih (dictInsert values (Int.fdiv (upper + lower) 2)
              (f n (Int.fdiv (upper + lower) 2)))
            lower (Int.fdiv (upper + lower) 2) (n + 1) (by omega) (by omega)
            ⟨a, by
              rw [lookup_dictInsert_ne _ _ (show lower ≠ Int.fdiv (upper + lower) 2 by omega)]
              exact hla, hapos⟩
            ⟨f n (Int.fdiv (upper + lower) 2), lookup_dictInsert_self _ _ _, le_of_lt hv⟩
        refine ⟨T, L, Int.fdiv (upper + lower) 2 :: qs, by rw [heq], hL1, by omega,
          fun _ => by omega, hsig, ?_⟩
        rcases hdisj with ⟨hLl, _⟩ | ⟨hLlt, hnext⟩
        · refine Or.inl ⟨hLl, Or.inr ?_⟩
          obtain ⟨T2, L2, qs2, heq2, hlk2⟩ :=
            dichoLoop_preserves f (Int.fdiv (upper + lower) 2) fuel
              (dictInsert values (Int.fdiv (upper + lower) 2)
                (f n (Int.fdiv (upper + lower) 2)))
              lower (Int.fdiv (upper + lower) 2) (n + 1) (by omega) (by omega)
              (Or.inr le_rfl)
          rw [heq] at heq2
          simp only [Prod.mk.injEq, Option.some.injEq, RunResult.mk.injEq,
            TraceSlot.map.injEq, Detail.crossover.injEq, true_and] at heq2
          obtain ⟨⟨hTT, -⟩, -⟩ := heq2
          refine ⟨Int.fdiv (upper + lower) 2, qs, f n (Int.fdiv (upper + lower) 2),
            rfl, ?_, hv⟩
          rw [← hTT] at hlk2
          rw [hlk2, lookup_dictInsert_self]
        · refine Or.inr ⟨hLlt, fun j hj => ?_⟩
          rw [nextAfter_cons, if_neg (show ¬ Int.fdiv (upper + lower) 2 = L by
            have := hL3 (by omega)
            omega)] at hj
          exact hnext j hj
      · rw [if_neg hv]
        obtain ⟨T, L, qs, heq, hL1, hL2, hL3, hsig, hdisj⟩ :=
          ih (dictInsert values (Int.fdiv (upper + lower) 2)
              (f n (Int.fdiv (upper + lower) 2)))
            (Int.fdiv (upper + lower) 2) upper (n + 1) (by omega) (by omega)
            ⟨f n (Int.fdiv (upper + lower) 2), lookup_dictInsert_self _ _ _, not_lt.1 hv⟩
            ⟨b, by
              rw [lookup_dictInsert_ne _ _ (show upper ≠ Int.fdiv (upper + lower) 2 by omega)]
              exact hlb, hbneg⟩
        refine ⟨T, L, Int.fdiv (upper + lower) 2 :: qs, by rw [heq], by omega, hL2,
          fun _ => hL3 (by omega), hsig, Or.inr ⟨by omega, fun j hj => ?_⟩⟩
        rcases hdisj with ⟨hLm, hq⟩ | ⟨hmL, hnext⟩
        · rw [nextAfter_cons, if_pos hLm.symm] at hj
          rcases hq with hq0 | ⟨q, qs2, w, hqq, hlkq, hwn⟩
          · rw [hq0] at hj
            cases hj
          · rw [hqq] at hj
            simp only [List.head?_cons, Option.some.injEq] at hj
            subst hj
            exact ⟨w, hlkq, hwn⟩
        · rw [nextAfter_cons, if_neg (show ¬ Int.fdiv (upper + lower) 2 = L by omega)] at hj
          exact hnext j hj

/-! ### Dispatch and entry lemmas -/

theorem Driver_run_exhaustive (f : ℕ → ℤ → ℚ) (s e : ℤ) :
    Driver_run "exhaustive" f s e = .ok (exhaustive f s e) := rfl

theorem Driver_run_dichotomic (f : ℕ → ℤ → ℚ) (s e : ℤ) :
    Driver_run "dichotomic" f s e = .ok (dichotomic f s e) := rfl

theorem GENERATORS_lookup_cases {name : String}
    {gen : (ℕ → ℤ → ℚ) → ℤ → ℤ → Option RunResult × List ℤ}
    (h : List.lookup name GENERATORS = some gen) :
    gen = exhaustive ∨ gen = dichotomic := by
  unfold GENERATORS at h
  rw [List.lookup_cons] at h
  cases hb1 : (name == "exhaustive") with
  | true =>
    rw [hb1] at h
    simp only [Option.some.injEq] at h
    exact Or.inl h.symm
  | false =>
    rw [hb1] at h
    simp only [] at h
    rw [List.lookup_cons] at h
    cases hb2 : (name == "dichotomic") with
    | true =>
      rw [hb2] at h
      simp only [Option.some.injEq] at h
      exact Or.inr h.symm
    | false =>
      rw [hb2] at h
      simp only [List.lookup_nil] at h
      cases h

theorem GENERATORS_lookup_none {name : String}
    (h1 : name ≠ "exhaustive") (h2 : name ≠ "dichotomic") :
    List.lookup name GENERATORS = none := by
  unfold GENERATORS
  rw [List.lookup_cons, beq_eq_false_iff_ne.2 h1]
  rw [List.lookup_cons, beq_eq_false_iff_ne.2 h2]
  rfl

theorem lookup_pair_upper (s e : ℤ) (v1 v2 : ℚ) :
    List.lookup e (dictInsert (dictInsert [] s v1) e v2) = some v2 :=
  lookup_dictInsert_self _ _ _

theorem lookup_pair_lower (s e : ℤ) (v1 v2 : ℚ) :
    List.lookup s (dictInsert (dictInsert [] s v1) e v2) =
      some (if s = e then v2 else v1) := by
  by_cases h : s = e
  · subst h
    rw [if_pos rfl]
    exact lookup_dictInsert_self _ _ _
  · rw [if_neg h, lookup_dictInsert_ne _ _ h]
    exact lookup_dictInsert_self _ _ _

theorem maxKey_pair (s e : ℤ) (v1 v2 : ℚ) (hse : s ≤ e) :
    maxKey (dictInsert (dictInsert [] s v1) e v2) = some e := by
  by_cases h : s = e
  · subst h
    simp [dictInsert, maxKey]
  · simp [dictInsert, h, maxKey, max_eq_right hse]

theorem dichotomic_allPositive (f : ℕ → ℤ → ℚ) (s e : ℤ) (v1 v2 : ℚ)
    (h1 : f 0 s = v1) (h2 : f 1 e = v2) (hse : s ≤ e) (hpos : 0 < v2) :
    dichotomic f s e =
      (some ⟨false, .map (dictInsert (dictInsert [] s v1) e v2),
        .allPositive e v2⟩, [s, e]) := by
  unfold dichotomic
  simp only [h1, h2, lookup_pair_upper, lookup_pair_lower, maxKey_pair s e v1 v2 hse,
    if_pos hpos]

theorem dichotomic_allNegative (f : ℕ → ℤ → ℚ) (s e : ℤ) (v1 v2 : ℚ)
    (h1 : f 0 s = v1) (h2 : f 1 e = v2)
    (hu : ¬ 0 < v2) (hl : (if s = e then v2 else v1) < 0) :
    dichotomic f s e = (some ⟨false, .scalar v2, .allNegative s⟩, [s, e]) := by
  unfold dichotomic
  simp only [h1, h2, lookup_pair_upper, lookup_pair_lower, if_neg hu, if_pos hl]

theorem dichotomic_loop (f : ℕ → ℤ → ℚ) (s e : ℤ) (v1 v2 : ℚ)
    (h1 : f 0 s = v1) (h2 : f 1 e = v2)
    (hu : ¬ 0 < v2) (hl : ¬ (if s = e then v2 else v1) < 0) :
    dichotomic f s e =
      ((dichoLoop f (dictInsert (dictInsert [] s v1) e v2) s e 2
          ((e - s).natAbs + 1)).1,
       s :: e :: (dichoLoop f (dictInsert (dictInsert [] s v1) e v2) s e 2
          ((e - s).natAbs + 1)).2) := by
  unfold dichotomic
  simp only [h1, h2, lookup_pair_upper, lookup_pair_lower, if_neg hu, if_neg hl]

/-! ### Claim C9: all scores positive gives AllPositive(end, score(end)) -/

/-- Claim C9: for every evaluation function whose score is strictly positive at
every size in `[start, end]`, both strategies terminate with the
`AllPositive(end, score(end))` verdict. -/
theorem claim_C9 (g : ℤ → ℚ) (s e : ℤ) (hse : s ≤ e)
    (hpos : ∀ i : ℤ, s ≤ i → i ≤ e → 0 < g i) :
    (exhaustive (fun _ => g) s e).1.map RunResult.detail =
      some (.allPositive e (g e)) ∧
    (dichotomic (fun _ => g) s e).1.map RunResult.detail =
      some (.allPositive e (g e)) := by
  constructor
  · obtain ⟨m, hm⟩ : ∃ m, (e + 1 - s).toNat = m + 1 := ⟨(e - s).toNat, by omega⟩
    have hall := exhaustiveLoop_allPass (fun _ => g) s m [] s 0
      (by intro p hp; cases hp)
      (fun j hj => le_of_lt (hpos (s + (j : ℤ)) (by omega) (by omega)))
    have hsm : s + (m : ℤ) = e := by omega
    rw [hsm] at hall
    unfold exhaustive
    rw [hm, hall]
    rfl
  · rw [dichotomic_allPositive (fun _ => g) s e (g s) (g e) rfl rfl hse (hpos e hse le_rfl)]
    rfl

/-- Witness for claim C9 at a concrete input. -/
theorem claim_C9_witness :
    (exhaustive (fun _ _ => (1 : ℚ)) 0 3).1.map RunResult.detail =
      some (.allPositive 3 1) ∧
    (dichotomic (fun _ _ => (1 : ℚ)) 0 3).1.map RunResult.detail =
      some (.allPositive 3 1) :=
  claim_C9 (fun _ => (1 : ℚ)) 0 3 (by norm_num) (fun i h1 h2 => by norm_num)

/-! ### Claim C2: non-positive score at start -/

/-- Claim C2 fails as stated: with the all-zero score function on `[0, 1]` the
score at the start is non-positive, yet the exhaustive strategy returns
`AllPositive` and the dichotomic strategy returns `Crossover`; moreover with a
negative start but positive end the dichotomic strategy returns `AllPositive`
(its `score(end) > 0` check fires first).  Neither returns `AllNegative`. -/
theorem claim_C2_counterexample :
    ((fun (_ : ℤ) => (0 : ℚ)) 0 ≤ 0 ∧
      exhaustive (fun _ _ => (0 : ℚ)) 0 1 =
        (some ⟨false, .map [(0, 0), (1, 0)], .allPositive 1 0⟩, [0, 1]) ∧
      dichotomic (fun _ _ => (0 : ℚ)) 0 1 =
        (some ⟨true, .map [(0, 0), (1, 0)], .crossover 0⟩, [0, 1])) ∧
    ((fun (i : ℤ) => if i = 0 then (-1 : ℚ) else 1) 0 ≤ 0 ∧
      dichotomic (fun _ i => if i = 0 then (-1 : ℚ) else 1) 0 1 =
        (some ⟨false, .map [(0, -1), (1, 1)], .allPositive 1 1⟩, [0, 1])) := by
  decide

/-- Claim C2 amended: for every evaluation function and bounds `start ≤ end`
with `score(start)` strictly negative and `score(end)` non-positive, both
strategies terminate with the `AllNegative(start)` verdict, the exhaustive
strategy after evaluating exactly 1 point and the dichotomic strategy after
evaluating exactly 2 points. -/
theorem claim_C2_amended (g : ℤ → ℚ) (s e : ℤ) (hse : s ≤ e)
    (hs : g s < 0) (he : g e ≤ 0) :
    exhaustive (fun _ => g) s e =
      (some ⟨false, .scalar (g s), .allNegative s⟩, [s]) ∧
    dichotomic (fun _ => g) s e =
      (some ⟨false, .scalar (g e), .allNegative s⟩, [s, e]) := by
  refine ⟨exhaustive_allNegative (fun _ => g) s e hse hs, ?_⟩
  refine dichotomic_allNegative (fun _ => g) s e (g s) (g e) rfl rfl (not_lt.2 he) ?_
  by_cases h : s = e
  · rw [if_pos h]
    exact h ▸ hs
  · rw [if_neg h]
    exact hs

/-- Witness for the amended claim C2 at a concrete input. -/
theorem claim_C2_amended_witness :
    exhaustive (fun _ _ => (-1 : ℚ)) 0 2 =
      (some ⟨false, .scalar (-1), .allNegative 0⟩, [0]) ∧
    dichotomic (fun _ _ => (-1 : ℚ)) 0 2 =
      (some ⟨false, .scalar (-1), .allNegative 0⟩, [0, 2]) :=
  claim_C2_amended (fun _ => (-1 : ℚ)) 0 2 (by norm_num) (by norm_num) (by norm_num)

/-! ### Claim C5: exhaustive evaluation count -/

/-- Claim C5 fails as stated: with scores `1, -1, -1` on `[0, 2]` the crossover
offset is `k = 0` (the start passes, the next size fails), but the exhaustive
strategy evaluates 2 points, not `k + 1 = 1`; and when the first failure is a
zero score (`1, 0, -5`), the scan does not even stop there, evaluating 3
points. -/
theorem claim_C5_counterexample :
    (0 < (fun i : ℤ => if i ≤ 0 then (1 : ℚ) else -1) 0 ∧
      (fun i : ℤ => if i ≤ 0 then (1 : ℚ) else -1) 1 ≤ 0 ∧
      (exhaustive (fun _ i => if i ≤ 0 then (1 : ℚ) else -1) 0 2).2.length = 2 ∧
      (2 : ℕ) ≠ 0 + 1) ∧
    (0 < (fun i : ℤ => if i ≤ 0 then (1 : ℚ) else if i = 1 then 0 else -5) 0 ∧
      (fun i : ℤ => if i ≤ 0 then (1 : ℚ) else if i = 1 then 0 else -5) 1 ≤ 0 ∧
      (exhaustive (fun _ i => if i ≤ 0 then (1 : ℚ) else if i = 1 then 0 else -5) 0 2).2.length
        = 3 ∧
      (3 : ℕ) ≠ 0 + 2) := by
  decide

/-- Claim C5 amended: when the scores at `start .. start + k` are strictly
positive and the score at `start + k + 1` is strictly negative (with
`start + k + 1 ≤ end`), the exhaustive strategy calls the evaluation function
on exactly the `k + 2` points `start .. start + k + 1`, evaluating no point
beyond the first failure. -/
theorem claim_C5_amended (g : ℤ → ℚ) (s e : ℤ) (k : ℕ)
    (hpass : ∀ j : ℕ, j ≤ k → 0 < g (s + (j : ℤ)))
    (hfail : g (s + (k : ℤ) + 1) < 0)
    (hin : s + (k : ℤ) + 1 ≤ e) :
    (exhaustive (fun _ => g) s e).2 =
      (List.range (k + 2)).map (fun (j : ℕ) => s + (j : ℤ)) ∧
    (exhaustive (fun _ => g) s e).2.length = k + 2 := by
  have hcross := exhaustiveLoop_crossover (fun _ => g) s (k + 1) (e + 1 - s).toNat [] s 0
    (by omega)
    (by push_cast; omega)
    (fun j hj => le_of_lt (hpass j (by omega)))
    (by
      show g (s + ((k + 1 : ℕ) : ℤ)) < 0
      have hc : s + ((k + 1 : ℕ) : ℤ) = s + (k : ℤ) + 1 := by push_cast; ring
      rw [hc]
      exact hfail)
    (by intro p hp; cases hp)
  unfold exhaustive
  rw [hcross]
  exact ⟨rfl, by rw [List.length_map, List.length_range]⟩

/-- Witness for the amended claim C5 at a concrete input. -/
theorem claim_C5_amended_witness :
    (exhaustive (fun _ i => if i ≤ 1 then (1 : ℚ) else -1) 0 3).2 = [0, 1, 2] ∧
    (exhaustive (fun _ i => if i ≤ 1 then (1 : ℚ) else -1) 0 3).2.length = 3 := by
  have h := claim_C5_amended (fun i => if i ≤ 1 then (1 : ℚ) else -1) 0 3 1
    (by
      intro j hj
      have hj2 : j = 0 ∨ j = 1 := by omega
      rcases hj2 with rfl | rfl <;> norm_num)
    (by norm_num) (by norm_num)
  refine ⟨?_, h.2⟩
  rw [h.1]
  decide

/-! ### Claim C6: dichotomic evaluation count -/

/-- Claim C6: for every evaluation function and bounds `start ≤ end`, the
dichotomic strategy terminates with a verdict after calling the evaluation
function at most `ceil(log2(end - start)) + 2` times. -/
theorem claim_C6 (g : ℤ → ℚ) (s e : ℤ) (hse : s ≤ e) :
    (∃ r, (dichotomic (fun _ => g) s e).1 = some r) ∧
    (dichotomic (fun _ => g) s e).2.length ≤ Nat.clog 2 (e - s).toNat + 2 := by
  by_cases hu : 0 < g e
  · rw [dichotomic_allPositive (fun _ => g) s e (g s) (g e) rfl rfl hse hu]
    exact ⟨⟨_, rfl⟩, by simp⟩
  · by_cases hl : (if s = e then g e else g s) < 0
    · rw [dichotomic_allNegative (fun _ => g) s e (g s) (g e) rfl rfl hu hl]
      exact ⟨⟨_, rfl⟩, by simp⟩
    · rw [dichotomic_loop (fun _ => g) s e (g s) (g e) rfl rfl hu hl]
      constructor
      · exact dichoLoop_isSome (fun _ => g) ((e - s).natAbs + 1)
          (dictInsert (dictInsert [] s (g s)) e (g e))
          s e 2 (by omega)
      · simp only [List.length_cons]
        have hcnt : (dichoLoop (fun _ => g)
              (dictInsert (dictInsert [] s (g s)) e (g e))
              s e 2 ((e - s).natAbs + 1)).2.length ≤ Nat.clog 2 (e - s).toNat :=
          dichoLoop_count (fun _ => g) ((e - s).natAbs + 1) _ s e 2 (by omega) hse
        exact Nat.add_le_add_right (Nat.add_le_add_right hcnt 1) 1

/-- Witness for claim C6 at a concrete input. -/
theorem claim_C6_witness :
    (∃ r, (dichotomic (fun _ i => if i ≤ 2 then (1 : ℚ) else -1) 0 8).1 = some r) ∧
    (dichotomic (fun _ i => if i ≤ 2 then (1 : ℚ) else -1) 0 8).2.length ≤
      Nat.clog 2 ((8 : ℤ) - 0).toNat + 2 :=
  claim_C6 (fun i => if i ≤ 2 then (1 : ℚ) else -1) 0 8 (by norm_num)

/-! ### Claim C10: the degenerate case start = end for the dichotomic strategy -/

/-- Claim C10: with `start = end` the dichotomic strategy queries the single
index `start` exactly twice, records only the second score in its trace, and
always terminates: `AllPositive(start, score)` if the second score is strictly
positive, `AllNegative(start)` if strictly negative, `Crossover(start)` if
exactly zero. -/
theorem claim_C10 (f : ℕ → ℤ → ℚ) (s : ℤ) :
    (dichotomic f s s).2 = [s, s] ∧
    (0 < f 1 s → dichotomic f s s =
      (some ⟨false, .map [(s, f 1 s)], .allPositive s (f 1 s)⟩, [s, s])) ∧
    (f 1 s < 0 → dichotomic f s s =
      (some ⟨false, .scalar (f 1 s), .allNegative s⟩, [s, s])) ∧
    (f 1 s = 0 → dichotomic f s s =
      (some ⟨true, .map [(s, f 1 s)], .crossover s⟩, [s, s])) := by
  have hval : dictInsert (dictInsert [] s (f 0 s)) s (f 1 s) = [(s, f 1 s)] := by
    simp [dictInsert]
  have happ : 0 < f 1 s → dichotomic f s s =
      (some ⟨false, .map [(s, f 1 s)], .allPositive s (f 1 s)⟩, [s, s]) := by
    intro h
    rw [dichotomic_allPositive f s s (f 0 s) (f 1 s) rfl rfl le_rfl h, hval]
  have hneg : f 1 s < 0 → dichotomic f s s =
      (some ⟨false, .scalar (f 1 s), .allNegative s⟩, [s, s]) := by
    intro h
    rw [dichotomic_allNegative f s s (f 0 s) (f 1 s) rfl rfl (not_lt.2 (le_of_lt h))
      (by rw [if_pos rfl]; exact h)]
  have hzero : f 1 s = 0 → dichotomic f s s =
      (some ⟨true, .map [(s, f 1 s)], .crossover s⟩, [s, s]) := by
    intro h
    rw [dichotomic_loop f s s (f 0 s) (f 1 s) rfl rfl (by rw [h]; norm_num)
      (by rw [if_pos rfl, h]; norm_num)]
    simp only [sub_self, Int.natAbs_zero, Nat.zero_add]
    rw [dichoLoop_succ, if_pos (by simp), hval]
  refine ⟨?_, happ, hneg, hzero⟩
  rcases lt_trichotomy (f 1 s) 0 with h | h | h
  · rw [hneg h]
  · rw [hzero h]
  · rw [happ h]

/-- Witness for claim C10 at a concrete input (second score exactly zero). -/
theorem claim_C10_witness :
    dichotomic (fun _ _ => (0 : ℚ)) 5 5 =
      (some ⟨true, .map [(5, 0)], .crossover 5⟩, [5, 5]) :=
  (claim_C10 (fun _ _ => (0 : ℚ)) 5).2.2.2 rfl

/-! ### Claim C3: the AllNegative verdict drops the trace (code bug) -/

/-- Claim C3 meets a code bug: in the `AllNegative` case both generators
execute `return False, value, (False, start_size)` - the bare last score in
the position that `Driver.run`'s own docstring documents as "a map<index,
value> containing all the evaluated point".  At the failing input the trace
slot is the scalar `-1`, not the mapping `{0: -1}`. -/
theorem claim_C3_bug :
    Driver_run "exhaustive" (fun _ _ => (-1 : ℚ)) 0 1 =
      .ok (some ⟨false, .scalar (-1), .allNegative 0⟩, [0]) ∧
    Driver_run "dichotomic" (fun _ _ => (-1 : ℚ)) 0 1 =
      .ok (some ⟨false, .scalar (-1), .allNegative 0⟩, [0, 1]) ∧
    TraceSlot.scalar (-1) ≠ TraceSlot.map [(0, -1)] := by
  refine ⟨?_, ?_, by decide⟩ <;> rfl

/-! ### Claim C1: exhaustive and dichotomic agree on the crossover index -/

/-- Claim C1 fails as stated: the score function `1, 0` on `[0, 1]` is
non-increasing, positive at the start, and non-positive after the single
boundary at index 0, yet the exhaustive run returns an `AllPositive` verdict
(a score of zero does not stop the scan, which tests `value < 0`) while the
dichotomic run returns `Crossover(0)` - the two verdicts differ. -/
theorem claim_C1_counterexample :
    ((fun i : ℤ => if i ≤ 0 then (1 : ℚ) else 0) 1 ≤
        (fun i : ℤ => if i ≤ 0 then (1 : ℚ) else 0) 0 ∧
      0 < (fun i : ℤ => if i ≤ 0 then (1 : ℚ) else 0) 0 ∧
      (fun i : ℤ => if i ≤ 0 then (1 : ℚ) else 0) 1 ≤ 0) ∧
    Driver_run "exhaustive" (fun _ i => if i ≤ 0 then (1 : ℚ) else 0) 0 1 =
      .ok (some ⟨false, .map [(0, 1), (1, 0)], .allPositive 1 0⟩, [0, 1]) ∧
    Driver_run "dichotomic" (fun _ i => if i ≤ 0 then (1 : ℚ) else 0) 0 1 =
      .ok (some ⟨true, .map [(0, 1), (1, 0)], .crossover 0⟩, [0, 1]) := by
  refine ⟨by decide, ?_, ?_⟩ <;> rfl

/-- Claim C1 amended: for every evaluation function that is non-increasing
over `[start, end]`, strictly positive up to a boundary `c` and strictly
negative beyond it, running the Driver with the exhaustive strategy and with
the dichotomic strategy both return a `Crossover` verdict with the identical
crossover index `c`. -/
theorem claim_C1_amended (g : ℤ → ℚ) (s e c : ℤ)
    (_hmono : ∀ i : ℤ, s ≤ i → i < e → g (i + 1) ≤ g i)
    (hsc : s ≤ c) (hce : c < e)
    (hpos : ∀ i : ℤ, s ≤ i → i ≤ c → 0 < g i)
    (hneg : ∀ i : ℤ, c < i → i ≤ e → g i < 0) :
    (∃ T1 q1, Driver_run "exhaustive" (fun _ => g) s e =
      .ok (some ⟨true, .map T1, .crossover c⟩, q1)) ∧
    (∃ T2 q2, Driver_run "dichotomic" (fun _ => g) s e =
      .ok (some ⟨true, .map T2, .crossover c⟩, q2)) := by
  constructor
  · obtain ⟨m, hm⟩ : ∃ m : ℕ, (m : ℤ) = c + 1 - s := ⟨(c + 1 - s).toNat, by omega⟩
    have hcross := exhaustiveLoop_crossover (fun _ => g) s m (e + 1 - s).toNat [] s 0
      (by omega)
      (by omega)
      (fun j hj => le_of_lt (hpos (s + (j : ℤ)) (by omega) (by omega)))
      (by
        show g (s + (m : ℤ)) < 0
        have hc : s + (m : ℤ) = c + 1 := by omega
        rw [hc]
        exact hneg (c + 1) (by omega) (by omega))
      (by intro p hp; cases hp)
    have hidx : s + (m : ℤ) - 1 = c := by omega
    rw [hidx] at hcross
    simp only [Driver_run_exhaustive, exhaustive]
    exact ⟨_, _, congrArg Except.ok hcross⟩
  · have hu : ¬ 0 < g e := not_lt.2 (le_of_lt (hneg e hce le_rfl))
    have hl : ¬ (if s = e then g e else g s) < 0 := by
      rw [if_neg (by omega)]
      exact not_lt.2 (le_of_lt (hpos s le_rfl hsc))
    obtain ⟨T, qs, hloop⟩ := dichoLoop_locates (fun _ => g) c ((e - s).natAbs + 1)
      (dictInsert (dictInsert [] s (g s)) e (g e)) s e 2 (by omega) hsc hce
      (fun k i hi1 hi2 => hpos i hi1 hi2)
      (fun k i hi1 hi2 => hneg i hi1 hi2)
    simp only [Driver_run_dichotomic,
      dichotomic_loop (fun _ => g) s e (g s) (g e) rfl rfl hu hl]
    exact ⟨T, s :: e :: qs, by rw [hloop]⟩

/-- Witness for the amended claim C1 at a concrete input
(scores `2, 1, -1, -2` on `[0, 3]`, boundary at 1). -/
theorem claim_C1_amended_witness :
    (∃ T1 q1, Driver_run "exhaustive"
        (fun _ i => if i ≤ 0 then (2 : ℚ) else if i ≤ 1 then 1 else if i ≤ 2 then -1 else -2)
        0 3 = .ok (some ⟨true, .map T1, .crossover 1⟩, q1)) ∧
    (∃ T2 q2, Driver_run "dichotomic"
        (fun _ i => if i ≤ 0 then (2 : ℚ) else if i ≤ 1 then 1 else if i ≤ 2 then -1 else -2)
        0 3 = .ok (some ⟨true, .map T2, .crossover 1⟩, q2)) := by
  refine claim_C1_amended
    (fun i => if i ≤ 0 then (2 : ℚ) else if i ≤ 1 then 1 else if i ≤ 2 then -1 else -2)
    0 3 1 ?_ (by norm_num) (by norm_num) ?_ ?_
  · intro i h1 h2
    have hi : i = 0 ∨ i = 1 ∨ i = 2 := by omega
    rcases hi with rfl | rfl | rfl <;> norm_num
  · intro i h1 h2
    have hi : i = 0 ∨ i = 1 := by omega
    rcases hi with rfl | rfl <;> norm_num
  · intro i h1 h2
    have hi : i = 2 ∨ i = 3 := by omega
    rcases hi with rfl | rfl <;> norm_num

/-! ### Claim C4: what a Crossover verdict says about the trace -/

/-- Claim C4 fails as stated: with scores `0, -1` on `[0, 1]` the exhaustive
run returns `Crossover(0)` (the zero score at the start passes the `value < 0`
test), but the trace records the score `0` at the crossover index, which is
not strictly positive. -/
theorem claim_C4_counterexample :
    Driver_run "exhaustive" (fun _ i => if i = 0 then (0 : ℚ) else -1) 0 1 =
      .ok (some ⟨true, .map [(0, 0), (1, -1)], .crossover 0⟩, [0, 1]) ∧
    List.lookup 0 [((0 : ℤ), (0 : ℚ)), (1, -1)] = some 0 ∧
    ¬ (0 : ℚ) < 0 := by
  refine ⟨rfl, by decide, by decide⟩

/-- Claim C4 amended: for every evaluation function and bounds `start ≤ end`,
whenever `Driver.run()` (with either strategy) returns a `Crossover(index)`
verdict, the trace records a non-negative score at that index and, whenever
some size was queried after it, a non-positive score at the next size that
was queried after it. -/
theorem claim_C4_amended (g : ℤ → ℚ) (name : String) (s e idx : ℤ)
    (T : List (ℤ × ℚ)) (qs : List ℤ) (hse : s ≤ e)
    (hrun : Driver_run name (fun _ => g) s e =
      .ok (some ⟨true, .map T, .crossover idx⟩, qs)) :
    (∃ v, List.lookup idx T = some v ∧ 0 ≤ v) ∧
    (∀ j, nextAfter qs idx = some j → ∃ w, List.lookup j T = some w ∧ w ≤ 0) := by
  unfold Driver_run at hrun
  cases hlk : List.lookup name GENERATORS with
  | none =>
    rw [hlk] at hrun
    simp at hrun
  | some gen =>
    rw [hlk] at hrun
    simp only [Except.ok.injEq] at hrun
    rcases GENERATORS_lookup_cases hlk with rfl | rfl
    · -- exhaustive strategy
      unfold exhaustive at hrun
      by_cases hex : ∃ j : ℕ, j < (e + 1 - s).toNat ∧ g (s + (j : ℤ)) < 0
      · have hfind := Nat.find_spec hex
        have hmin := fun j (hj : j < Nat.find hex) => Nat.find_min hex hj
        rcases Nat.eq_zero_or_pos (Nat.find hex) with hz | hpos0
        · have hneg0 : g s < 0 := by
            have h2 := hfind.2
            rw [hz] at h2
            simpa using h2
          have hall := exhaustive_allNegative (fun _ => g) s e hse hneg0
          unfold exhaustive at hall
          rw [hall] at hrun
          simp at hrun
        · obtain ⟨j1, hj1⟩ : ∃ j1, Nat.find hex = j1 + 1 := ⟨Nat.find hex - 1, by omega⟩
          rw [hj1] at hfind hmin
          have hcross := exhaustiveLoop_crossover (fun _ => g) s (j1 + 1)
            (e + 1 - s).toNat [] s 0 hfind.1
            (by push_cast; omega)
            (by
              intro j hj
              have hnj := hmin j hj
              by_contra hcon
              exact hnj ⟨by omega, not_le.1 (fun hle => hcon (by simpa using hle))⟩)
            hfind.2
            (by intro p hp; cases hp)
          rw [hcross] at hrun
          simp only [Prod.mk.injEq, Option.some.injEq, RunResult.mk.injEq,
            TraceSlot.map.injEq, Detail.crossover.injEq, true_and, List.nil_append] at hrun
          obtain ⟨⟨hT, hidx⟩, hqs⟩ := hrun
          subst hT
          subst hqs
          have hidx2 : idx = s + (j1 : ℤ) := by omega
          subst hidx2
          constructor
          · refine ⟨g (s + (j1 : ℤ)), ?_, ?_⟩
            · exact lookup_rangeMap (j1 + 1 + 1)
                (fun i => (fun _ => g) (0 + i) (s + (i : ℤ))) s j1 (by omega)
            · have hnj := hmin j1 (by omega)
              by_contra hcon
              exact hnj ⟨by omega, not_le.1 hcon⟩
          · intro j hj
            rw [nextAfter_rangeMap (j1 + 1 + 1) s j1 (by omega)] at hj
            simp only [Option.some.injEq] at hj
            subst hj
            refine ⟨g (s + (j1 : ℤ) + 1), ?_, ?_⟩
            · have hkey : s + (j1 : ℤ) + 1 = s + ((j1 + 1 : ℕ) : ℤ) := by push_cast; ring
              rw [hkey]
              exact lookup_rangeMap (j1 + 1 + 1)
                (fun i => (fun _ => g) (0 + i) (s + (i : ℤ))) s (j1 + 1) (by omega)
            · have h2 := hfind.2
              have hkey : s + ((j1 + 1 : ℕ) : ℤ) = s + (j1 : ℤ) + 1 := by push_cast; ring
              rw [hkey] at h2
              exact le_of_lt h2
      · push_neg at hex
        obtain ⟨m, hm⟩ : ∃ m, (e + 1 - s).toNat = m + 1 := ⟨(e - s).toNat, by omega⟩
        have hall := exhaustiveLoop_allPass (fun _ => g) s m [] s 0
          (by intro p hp; cases hp)
          (fun j hj => hex j (by omega))
        rw [hm, hall] at hrun
        simp at hrun
    · -- dichotomic strategy
      by_cases hu : 0 < g e
      · rw [dichotomic_allPositive (fun _ => g) s e (g s) (g e) rfl rfl hse hu] at hrun
        simp at hrun
      · by_cases hl : (if s = e then g e else g s) < 0
        · rw [dichotomic_allNegative (fun _ => g) s e (g s) (g e) rfl rfl hu hl] at hrun
          simp at hrun
        · rw [dichotomic_loop (fun _ => g) s e (g s) (g e) rfl rfl hu hl] at hrun
          obtain ⟨T', L, qs', heq, hL1, hL2, hL3, hsig, hdisj⟩ :=
            dichoLoop_invariant (fun _ => g) ((e - s).natAbs + 1)
              (dictInsert (dictInsert [] s (g s)) e (g e)) s e 2 (by omega) hse
              ⟨if s = e then g e else g s, lookup_pair_lower s e (g s) (g e), not_lt.1 hl⟩
              ⟨g e, lookup_pair_upper s e (g s) (g e), not_lt.1 hu⟩
          rw [heq] at hrun
          simp only [Prod.mk.injEq, Option.some.injEq, RunResult.mk.injEq,
            TraceSlot.map.injEq, Detail.crossover.injEq, true_and] at hrun
          obtain ⟨⟨hT, hL⟩, hqs⟩ := hrun
          subst hT
          subst hL
          subst hqs
          have hpres : List.lookup e T' = some (g e) := by
            obtain ⟨T2, L2, qs2, heq2, hlk2⟩ := dichoLoop_preserves (fun _ => g) e
              ((e - s).natAbs + 1) (dictInsert (dictInsert [] s (g s)) e (g e))
              s e 2 (by omega) hse (Or.inr le_rfl)
            rw [heq] at heq2
            simp only [Prod.mk.injEq, Option.some.injEq, RunResult.mk.injEq,
              TraceSlot.map.injEq, Detail.crossover.injEq, true_and] at heq2
            obtain ⟨⟨hTT, -⟩, -⟩ := heq2
            rw [← hTT] at hlk2
            rw [hlk2, lookup_pair_upper]
          refine ⟨hsig, ?_⟩
          intro j hj
          by_cases hse2 : s = e
          · subst hse2
            have hLs : L = s := le_antisymm hL2 hL1
            rw [hLs, nextAfter_cons, if_pos rfl] at hj
            simp only [List.head?_cons, Option.some.injEq] at hj
            subst hj
            exact ⟨g s, hpres, not_lt.1 hu⟩
          · have hsl : s < e := lt_of_le_of_ne hse hse2
            rcases hdisj with ⟨hLl, -⟩ | ⟨hLlt, hnext⟩
            · rw [hLl, nextAfter_cons, if_pos rfl] at hj
              simp only [List.head?_cons, Option.some.injEq] at hj
              subst hj
              exact ⟨g e, hpres, not_lt.1 hu⟩
            · have hLe : L < e := hL3 hsl
              rw [nextAfter_cons, if_neg (by omega), nextAfter_cons, if_neg (by omega)] at hj
              obtain ⟨w, hw1, hw2⟩ := hnext j hj
              exact ⟨w, hw1, le_of_lt hw2⟩

/-- Witness for the amended claim C4 at a concrete input. -/
theorem claim_C4_amended_witness :
    (∃ v, List.lookup 1 [((0 : ℤ), (2 : ℚ)), (1, 1), (2, -1)] = some v ∧ 0 ≤ v) ∧
    (∀ j, nextAfter [0, 1, 2] 1 = some j →
      ∃ w, List.lookup j [((0 : ℤ), (2 : ℚ)), (1, 1), (2, -1)] = some w ∧ w ≤ 0) :=
  claim_C4_amended (fun i => if i ≤ 0 then (2 : ℚ) else if i ≤ 1 then 1 else -1)
    "exhaustive" 0 3 1 [(0, 2), (1, 1), (2, -1)] [0, 1, 2] (by norm_num) (by rfl)

/-! ### Lemmas for the exception-aware model -/

theorem exhaustiveLoopE_zero {ε : Type} (f : ℤ → Except ε ℚ) (start : ℤ)
    (values : List (ℤ × ℚ)) (index : ℤ) :
    exhaustiveLoopE f start values index 0 =
      (match maxKey values with
       | none => (.ok none, [])
       | some mk =>
         match List.lookup mk values with
         | none => (.ok none, [])
         | some mv => (.ok (some ⟨false, .map values, .allPositive mk mv⟩), [])) := rfl

theorem exhaustiveLoopE_succ {ε : Type} (f : ℤ → Except ε ℚ) (start : ℤ)
    (values : List (ℤ × ℚ)) (index : ℤ) (fuel : ℕ) :
    exhaustiveLoopE f start values index (fuel + 1) =
      (match f index with
       | .error err => (.error err, [index])
       | .ok value =>
         if value < 0 then
           if index = start then
             (.ok (some ⟨false, .scalar value, .allNegative start⟩), [index])
           else (.ok (some ⟨true, .map (dictInsert values index value),
             .crossover (index - 1)⟩), [index])
         else
           ((exhaustiveLoopE f start (dictInsert values index value) (index + 1) fuel).1,
            index :: (exhaustiveLoopE f start (dictInsert values index value)
              (index + 1) fuel).2)) := rfl

theorem dichoLoopE_succ {ε : Type} (f : ℤ → Except ε ℚ) (values : List (ℤ × ℚ))
    (lower upper : ℤ) (fuel : ℕ) :
    dichoLoopE f values lower upper (fuel + 1) =
      (if (upper - lower).natAbs ≤ 1 then
        (.ok (some ⟨true, .map values, .crossover lower⟩), [])
      else
        match f (Int.fdiv (upper + lower) 2) with
        | .error err => (.error err, [Int.fdiv (upper + lower) 2])
        | .ok v =>
          if v < 0 then
            ((dichoLoopE f (dictInsert values (Int.fdiv (upper + lower) 2) v) lower
                (Int.fdiv (upper + lower) 2) fuel).1,
             Int.fdiv (upper + lower) 2 :: (dichoLoopE f
                (dictInsert values (Int.fdiv (upper + lower) 2) v) lower
                (Int.fdiv (upper + lower) 2) fuel).2)
          else
            ((dichoLoopE f (dictInsert values (Int.fdiv (upper + lower) 2) v)
                (Int.fdiv (upper + lower) 2) upper fuel).1,
             Int.fdiv (upper + lower) 2 :: (dichoLoopE f
                (dictInsert values (Int.fdiv (upper + lower) 2) v)
                (Int.fdiv (upper + lower) 2) upper fuel).2)) := rfl

theorem exhaustiveLoopE_error {ε : Type} (f : ℤ → Except ε ℚ) (start : ℤ) :
    ∀ (fuel : ℕ) (values : List (ℤ × ℚ)) (index : ℤ) (err : ε),
      (exhaustiveLoopE f start values index fuel).1 = .error err →
      ∃ qs q, (exhaustiveLoopE f start values index fuel).2 = qs ++ [q] ∧
        f q = .error err ∧ ∀ i ∈ qs, ∃ v, f i = .ok v := by
  intro fuel
  induction fuel with
  | zero =>
    intro values index err h
    rcases hmk : maxKey values with _ | mk
    · simp only [exhaustiveLoopE_zero, hmk] at h
      cases h
    · rcases hlk : List.lookup mk values with _ | mv
      · simp only [exhaustiveLoopE_zero, hmk, hlk] at h
        cases h
      · simp only [exhaustiveLoopE_zero, hmk, hlk] at h
        cases h
  | succ fuel ih =>
    intro values index err h
    rcases hfi : f index with err2 | value
    · simp only [exhaustiveLoopE_succ, hfi] at h ⊢
      injection h with h
      subst h
      exact ⟨[], index, by simp, hfi, by simp⟩
    · simp only [exhaustiveLoopE_succ, hfi] at h ⊢
      by_cases hvn : value < 0
      · rw [if_pos hvn] at h ⊢
        by_cases his : index = start
        · rw [if_pos his] at h
          cases h
        · rw [if_neg his] at h
          cases h
      · rw [if_neg hvn] at h ⊢
        obtain ⟨qs, q, h2, h3, h4⟩ := ih (dictInsert values index value) (index + 1) err h
        refine ⟨index :: qs, q, by simp [h2], h3, ?_⟩
        intro i hi
        rcases List.mem_cons.1 hi with rfl | hi2
        · exact ⟨value, hfi⟩
        · exact h4 i hi2

theorem exhaustiveLoopE_ok {ε : Type} (f : ℤ → Except ε ℚ) (start : ℤ) :
    ∀ (fuel : ℕ) (values : List (ℤ × ℚ)) (index : ℤ) (r : Option RunResult),
      (exhaustiveLoopE f start values index fuel).1 = .ok r →
      ∀ i ∈ (exhaustiveLoopE f start values index fuel).2, ∃ v, f i = .ok v := by
  intro fuel
  induction fuel with
  | zero =>
    intro values index r h i hi
    rcases hmk : maxKey values with _ | mk
    · simp only [exhaustiveLoopE_zero, hmk] at hi
      cases hi
    · rcases hlk : List.lookup mk values with _ | mv
      · simp only [exhaustiveLoopE_zero, hmk, hlk] at hi
        cases hi
      · simp only [exhaustiveLoopE_zero, hmk, hlk] at hi
        cases hi
  | succ fuel ih =>
    intro values index r h i hi
    rcases hfi : f index with err2 | value
    · simp only [exhaustiveLoopE_succ, hfi] at h
      exact Except.noConfusion h
    · simp only [exhaustiveLoopE_succ, hfi] at h hi
      by_cases hvn : value < 0
      · rw [if_pos hvn] at hi
        by_cases his : index = start
        · rw [if_pos his] at hi
          simp only [List.mem_singleton] at hi
          subst hi
          exact ⟨value, hfi⟩
        · rw [if_neg his] at hi
          simp only [List.mem_singleton] at hi
          subst hi
          exact ⟨value, hfi⟩
      · rw [if_neg hvn] at h hi
        rcases List.mem_cons.1 hi with rfl | hi2
        · exact ⟨value, hfi⟩
        · exact ih (dictInsert values index value) (index + 1) r h i hi2

theorem dichoLoopE_error {ε : Type} (f : ℤ → Except ε ℚ) :
    ∀ (fuel : ℕ) (values : List (ℤ × ℚ)) (lower upper : ℤ) (err : ε),
      (dichoLoopE f values lower upper fuel).1 = .error err →
      ∃ qs q, (dichoLoopE f values lower upper fuel).2 = qs ++ [q] ∧
        f q = .error err ∧ ∀ i ∈ qs, ∃ v, f i = .ok v := by
  intro fuel
  induction fuel with
  | zero =>
    intro values lower upper err h
    cases h
  | succ fuel ih =>
    intro values lower upper err h
    by_cases hgap : (upper - lower).natAbs ≤ 1
    · rw [dichoLoopE_succ, if_pos hgap] at h
      cases h
    · rcases hfm : f (Int.fdiv (upper + lower) 2) with err2 | v
      · simp only [dichoLoopE_succ, if_neg hgap, hfm] at h ⊢
        injection h with h
        subst h
        exact ⟨[], Int.fdiv (upper + lower) 2, by simp, hfm, by simp⟩
      · simp only [dichoLoopE_succ, if_neg hgap, hfm] at h ⊢
        by_cases hvn : v < 0
        · rw [if_pos hvn] at h ⊢
          obtain ⟨qs, q, h2, h3, h4⟩ := ih (dictInsert values (Int.fdiv (upper + lower) 2) v)
            lower (Int.fdiv (upper + lower) 2) err h
          refine ⟨Int.fdiv (upper + lower) 2 :: qs, q, by simp [h2], h3, ?_⟩
          intro i hi
          rcases List.mem_cons.1 hi with rfl | hi2
          · exact ⟨v, hfm⟩
          · exact h4 i hi2
        · rw [if_neg hvn] at h ⊢
          obtain ⟨qs, q, h2, h3, h4⟩ := ih (dictInsert values (Int.fdiv (upper + lower) 2) v)
            (Int.fdiv (upper + lower) 2) upper err h
          refine ⟨Int.fdiv (upper + lower) 2 :: qs, q, by simp [h2], h3, ?_⟩
          intro i hi
          rcases List.mem_cons.1 hi with rfl | hi2
          · exact ⟨v, hfm⟩
          · exact h4 i hi2

theorem dichoLoopE_ok {ε : Type} (f : ℤ → Except ε ℚ) :
    ∀ (fuel : ℕ) (values : List (ℤ × ℚ)) (lower upper : ℤ) (r : Option RunResult),
      (dichoLoopE f values lower upper fuel).1 = .ok r →
      ∀ i ∈ (dichoLoopE f values lower upper fuel).2, ∃ v, f i = .ok v := by
  intro fuel
  induction fuel with
  | zero =>
    intro values lower upper r h i hi
    cases hi
  | succ fuel ih =>
    intro values lower upper r h i hi
    by_cases hgap : (upper - lower).natAbs ≤ 1
    · rw [dichoLoopE_succ, if_pos hgap] at hi
      cases hi
    · rcases hfm : f (Int.fdiv (upper + lower) 2) with err2 | v
      · simp only [dichoLoopE_succ, if_neg hgap, hfm] at h
        exact Except.noConfusion h
      · simp only [dichoLoopE_succ, if_neg hgap, hfm] at h hi
        by_cases hvn : v < 0
        · rw [if_pos hvn] at h hi
          rcases List.mem_cons.1 hi with rfl | hi2
          · exact ⟨v, hfm⟩
          · exact ih (dictInsert values (Int.fdiv (upper + lower) 2) v)
              lower (Int.fdiv (upper + lower) 2) r h i hi2
        · rw [if_neg hvn] at h hi
          rcases List.mem_cons.1 hi with rfl | hi2
          · exact ⟨v, hfm⟩
          · exact ih (dictInsert values (Int.fdiv (upper + lower) 2) v)
              (Int.fdiv (upper + lower) 2) upper r h i hi2

theorem exhaustiveE_error {ε : Type} (f : ℤ → Except ε ℚ) (s e : ℤ) (err : ε)
    (h : (exhaustiveE f s e).1 = .error err) :
    ∃ qs q, (exhaustiveE f s e).2 = qs ++ [q] ∧ f q = .error err ∧
      ∀ i ∈ qs, ∃ v, f i = .ok v :=
  exhaustiveLoopE_error f s (e + 1 - s).toNat [] s err h

theorem exhaustiveE_ok {ε : Type} (f : ℤ → Except ε ℚ) (s e : ℤ) (r : Option RunResult)
    (h : (exhaustiveE f s e).1 = .ok r) :
    ∀ i ∈ (exhaustiveE f s e).2, ∃ v, f i = .ok v :=
  exhaustiveLoopE_ok f s (e + 1 - s).toNat [] s r h

theorem dichotomicE_error {ε : Type} (f : ℤ → Except ε ℚ) (s e : ℤ) (err : ε)
    (h : (dichotomicE f s e).1 = .error err) :
    ∃ qs q, (dichotomicE f s e).2 = qs ++ [q] ∧ f q = .error err ∧
      ∀ i ∈ qs, ∃ v, f i = .ok v := by
  rcases hfs : f s with e1 | v1
  · simp only [dichotomicE, hfs] at h ⊢
    injection h with h
    subst h
    exact ⟨[], s, by simp, hfs, by simp⟩
  · rcases hfe : f e with e2 | v2
    · simp only [dichotomicE, hfs, hfe] at h ⊢
      injection h with h
      subst h
      refine ⟨[s], e, by simp, hfe, ?_⟩
      intro i hi
      simp only [List.mem_singleton] at hi
      subst hi
      exact ⟨v1, hfs⟩
    · simp only [dichotomicE, hfs, hfe, lookup_pair_upper, lookup_pair_lower] at h ⊢
      by_cases hvu : 0 < v2
      · rw [if_pos hvu] at h ⊢
        rcases hmk : maxKey (dictInsert (dictInsert [] s v1) e v2) with _ | mk
        · simp only [hmk] at h
          exact Except.noConfusion h
        · rcases hlk : List.lookup mk (dictInsert (dictInsert [] s v1) e v2) with _ | mv
          · simp only [hmk, hlk] at h
            exact Except.noConfusion h
          · simp only [hmk, hlk] at h
            exact Except.noConfusion h
      · rw [if_neg hvu] at h ⊢
        by_cases hvl : (if s = e then v2 else v1) < 0
        · rw [if_pos hvl] at h
          exact Except.noConfusion h
        · rw [if_neg hvl] at h ⊢
          obtain ⟨qs, q, h2, h3, h4⟩ := dichoLoopE_error f ((e - s).natAbs + 1)
            (dictInsert (dictInsert [] s v1) e v2) s e err h
          refine ⟨s :: e :: qs, q, by simp [h2], h3, ?_⟩
          intro i hi
          rcases List.mem_cons.1 hi with rfl | hi2
          · exact ⟨v1, hfs⟩
          · rcases List.mem_cons.1 hi2 with rfl | hi3
            · exact ⟨v2, hfe⟩
            · exact h4 i hi3

theorem dichotomicE_ok {ε : Type} (f : ℤ → Except ε ℚ) (s e : ℤ) (r : Option RunResult)
    (h : (dichotomicE f s e).1 = .ok r) :
    ∀ i ∈ (dichotomicE f s e).2, ∃ v, f i = .ok v := by
  intro i hi
  rcases hfs : f s with e1 | v1
  · simp only [dichotomicE, hfs] at h
    exact Except.noConfusion h
  · rcases hfe : f e with e2 | v2
    · simp only [dichotomicE, hfs, hfe] at h
      exact Except.noConfusion h
    · simp only [dichotomicE, hfs, hfe, lookup_pair_upper, lookup_pair_lower] at h hi
      have hmem2 : i ∈ ([s, e] : List ℤ) → ∃ v, f i = .ok v := by
        intro hm
        rcases List.mem_cons.1 hm with rfl | hm2
        · exact ⟨v1, hfs⟩
        · rcases List.mem_cons.1 hm2 with rfl | hm3
          · exact ⟨v2, hfe⟩
          · cases hm3
      by_cases hvu : 0 < v2
      · rw [if_pos hvu] at hi
        rcases hmk : maxKey (dictInsert (dictInsert [] s v1) e v2) with _ | mk
        · simp only [hmk] at hi
          exact hmem2 hi
        · rcases hlk : List.lookup mk (dictInsert (dictInsert [] s v1) e v2) with _ | mv
          · simp only [hmk, hlk] at hi
            exact hmem2 hi
          · simp only [hmk, hlk] at hi
            exact hmem2 hi
      · rw [if_neg hvu] at h hi
        by_cases hvl : (if s = e then v2 else v1) < 0
        · rw [if_pos hvl] at hi
          exact hmem2 hi
        · rw [if_neg hvl] at h hi
          rcases List.mem_cons.1 hi with rfl | hi2
          · exact ⟨v1, hfs⟩
          · rcases List.mem_cons.1 hi2 with rfl | hi3
            · exact ⟨v2, hfe⟩
            · exact dichoLoopE_ok f ((e - s).natAbs + 1)
                (dictInsert (dictInsert [] s v1) e v2) s e r h i hi3

theorem GENERATORSE_lookup_cases {ε : Type} {name : String}
    {gen : (ℤ → Except ε ℚ) → ℤ → ℤ → Except ε (Option RunResult) × List ℤ}
    (h : List.lookup name (GENERATORSE ε) = some gen) :
    gen = exhaustiveE ∨ gen = dichotomicE := by
  unfold GENERATORSE at h
  rw [List.lookup_cons] at h
  cases hb1 : (name == "exhaustive") with
  | true =>
    rw [hb1] at h
    simp only [Option.some.injEq] at h
    exact Or.inl h.symm
  | false =>
    rw [hb1] at h
    simp only [] at h
    rw [List.lookup_cons] at h
    cases hb2 : (name == "dichotomic") with
    | true =>
      rw [hb2] at h
      simp only [Option.some.injEq] at h
      exact Or.inr h.symm
    | false =>
      rw [hb2] at h
      simp only [List.lookup_nil] at h
      cases h

theorem GENERATORSE_lookup_none (ε : Type) {name : String}
    (h1 : name ≠ "exhaustive") (h2 : name ≠ "dichotomic") :
    List.lookup name (GENERATORSE ε) = none := by
  unfold GENERATORSE
  rw [List.lookup_cons, beq_eq_false_iff_ne.2 h1]
  rw [List.lookup_cons, beq_eq_false_iff_ne.2 h2]
  rfl

theorem driverRunE_none {ε : Type} (name : String) (f : ℤ → Except ε ℚ) (s e : ℤ)
    (h : List.lookup name (GENERATORSE ε) = none) :
    driverRunE name f s e = (.error (.unsupportedStrategy name), []) := by
  unfold driverRunE
  rw [h]

theorem driverRunE_eq {ε : Type} (name : String) (f : ℤ → Except ε ℚ) (s e : ℤ)
    (gen : (ℤ → Except ε ℚ) → ℤ → ℤ → Except ε (Option RunResult) × List ℤ)
    (h : List.lookup name (GENERATORSE ε) = some gen) :
    driverRunE name f s e =
      ((gen f s e).1.mapError DriverError.evalFailure, (gen f s e).2) := by
  unfold driverRunE
  rw [h]

/-! ### Claim C7: unrecognized strategy names fail at construction time -/

/-- Claim C7: for every strategy name other than `"exhaustive"` and
`"dichotomic"`, constructing a Driver fails immediately with the
unsupported-strategy error (the `ValueError` of `Driver.__init__`), no
evaluation-function call is performed (the attempted-query list is empty) and
no verdict or partial state is produced. -/
theorem claim_C7 (ε : Type) (name : String) (g : ℕ → ℤ → ℚ) (f : ℤ → Except ε ℚ)
    (s e : ℤ) (h1 : name ≠ "exhaustive") (h2 : name ≠ "dichotomic") :
    Driver_run name g s e = .error ("Unknown iteration method " ++ name) ∧
    driverRunE name f s e = (.error (.unsupportedStrategy name), []) := by
  constructor
  · unfold Driver_run
    rw [GENERATORS_lookup_none h1 h2]
  · unfold driverRunE
    rw [GENERATORSE_lookup_none ε h1 h2]

/-- Witness for claim C7 at the concrete unrecognized name `"binary"`. -/
theorem claim_C7_witness :
    Driver_run "binary" (fun _ _ => (0 : ℚ)) 0 3 =
      .error ("Unknown iteration method " ++ "binary") ∧
    driverRunE "binary" (fun _ => (Except.ok (0 : ℚ) : Except Unit ℚ)) 0 3 =
      (.error (.unsupportedStrategy "binary"), []) :=
  claim_C7 Unit "binary" (fun _ _ => (0 : ℚ)) (fun _ => Except.ok (0 : ℚ)) 0 3
    (by decide) (by decide)

/-! ### Claim C8: evaluation-function failures propagate unchanged -/

/-- Claim C8: for every evaluation function that fails on some queried index,
`run()` propagates that error unchanged: when the run ends in an evaluation
failure, the last attempted query is the failing call, its error is returned
as is, every earlier query succeeded (no retry, no recovery) and no verdict is
produced; when the run produces a verdict, every queried index succeeded; and
an evaluation failure is distinguishable from the construction-time
configuration error, which only arises for unknown strategy names and before
any evaluation. -/
theorem claim_C8 (ε : Type) (name : String) (f : ℤ → Except ε ℚ) (s e : ℤ) :
    (∀ err : ε, (driverRunE name f s e).1 = .error (.evalFailure err) →
      ∃ qs q, (driverRunE name f s e).2 = qs ++ [q] ∧ f q = .error err ∧
        ∀ i ∈ qs, ∃ v, f i = .ok v) ∧
    (∀ r, (driverRunE name f s e).1 = .ok r →
      ∀ i ∈ (driverRunE name f s e).2, ∃ v, f i = .ok v) ∧
    (∀ n2, (driverRunE name f s e).1 = .error (.unsupportedStrategy n2) →
      (driverRunE name f s e).2 = [] ∧ List.lookup name (GENERATORSE ε) = none) := by
  cases hlk : List.lookup name (GENERATORSE ε) with
  | none =>
    rw [driverRunE_none name f s e hlk]
    refine ⟨?_, ?_, ?_⟩
    · intro err h
      injection h with h
      exact DriverError.noConfusion h
    · intro r h
      exact Except.noConfusion h
    · intro n2 h
      exact ⟨rfl, rfl⟩
  | some gen =>
    rw [driverRunE_eq name f s e gen hlk]
    have hcases := GENERATORSE_lookup_cases hlk
    refine ⟨?_, ?_, ?_⟩
    · intro err h
      have hstrat : (gen f s e).1 = .error err := by
        rcases hx : (gen f s e).1 with e0 | r0
        · rw [hx] at h
          simp only [Except.mapError] at h
          injection h with h
          injection h with h
          rw [h]
        · rw [hx] at h
          simp only [Except.mapError] at h
          exact Except.noConfusion h
      rcases hcases with rfl | rfl
      · exact exhaustiveE_error f s e err hstrat
      · exact dichotomicE_error f s e err hstrat
    · intro r h
      have hstrat : (gen f s e).1 = .ok r := by
        rcases hx : (gen f s e).1 with e0 | r0
        · rw [hx] at h
          simp only [Except.mapError] at h
          exact Except.noConfusion h
        · rw [hx] at h
          simp only [Except.mapError] at h
          injection h with h
          rw [h]
      rcases hcases with rfl | rfl
      · exact exhaustiveE_ok f s e r hstrat
      · exact dichotomicE_ok f s e r hstrat
    · intro n2 h
      rcases hx : (gen f s e).1 with e0 | r0 <;> rw [hx] at h <;>
        simp only [Except.mapError] at h
      · injection h with h
        exact DriverError.noConfusion h
      · exact Except.noConfusion h

/-- Witness for claim C8: a run whose evaluation function fails at index 2
aborts there with the error propagated unchanged and all earlier queries
successful. -/
theorem claim_C8_witness :
    ∃ qs q, (driverRunE "exhaustive"
        (fun i => if i = 2 then (Except.error "boom" : Except String ℚ) else .ok 1)
        0 5).2 = qs ++ [q] ∧
      (if q = 2 then (Except.error "boom" : Except String ℚ) else .ok 1) =
        .error "boom" ∧
      ∀ i ∈ qs, ∃ v,
        (if i = 2 then (Except.error "boom" : Except String ℚ) else .ok 1) = .ok v :=
  (claim_C8 String "exhaustive"
    (fun i => if i = 2 then (Except.error "boom" : Except String ℚ) else .ok 1)
    0 5).1 "boom" (by rfl)
